import Mathlib

/-!
Shallow embedding of `src/rb.c`, a fixed-capacity ring buffer with
free-running `uint32_t` cursors (`in`, `out`), a power-of-two `size`
and `mask = size - 1`.  Machine integers are modelled as `Nat` with
explicit reduction modulo `2^32` where the C code can overflow, and
the backing byte array as a `List Nat`.
-/

namespace RB

/-- `2^32`, the modulus of the C `uint32_t` arithmetic. -/
def U32 : Nat := 4294967296

/-- Unsigned 32-bit subtraction `a - b` (two's complement wraparound),
assuming `a < U32`; `b` is first reduced mod `U32`. -/
def sub32 (a b : Nat) : Nat := (a + U32 - b % U32) % U32

/-- The `struct ringbuffer` of `rb.c`: cursors `in`/`out` (renamed `in_`
because `in` is a Lean keyword), `mask`, `size`, `esize` and the backing
byte array `data`. -/
structure Ringbuffer where
  in_ : Nat
  out : Nat
  mask : Nat
  size : Nat
  esize : Nat
  data : List Nat
deriving Repr, DecidableEq, Inhabited

/-- `memcpy(d + ofs, s, s.length)` on list-modelled byte arrays: writes the
bytes of `s` into `d` starting at index `ofs` (out-of-range writes are
dropped, as `List.set` is then the identity). -/
def memcpyList : List Nat → Nat → List Nat → List Nat
  | d, _, [] => d
  | d, ofs, b :: rest => memcpyList (d.set ofs b) (ofs + 1) rest

/-- `memcpy(dst, d + ofs, count)`: the `count` bytes of `d` starting at
index `ofs`. -/
def readBytes (d : List Nat) (ofs count : Nat) : List Nat :=
  (d.drop ofs).take count

/-- `rb_size`: the capacity in bytes. -/
def rb_size (r : Ringbuffer) : Nat := r.size

/-- `rb_avail`: space used in the ring buffer, `in - out` as `uint32_t`. -/
def rb_avail (r : Ringbuffer) : Nat := sub32 r.in_ r.out

/-- `rb_unused`: space left in the ring buffer, `size - (in - out)` as
`uint32_t`. -/
def rb_unused (r : Ringbuffer) : Nat := sub32 r.size (rb_avail r)

/-- `rb_is_empty`: `in == out`. -/
def rb_is_empty (r : Ringbuffer) : Bool := r.in_ == r.out

/-- `rb_is_full`: `rb_avail(r) > r->mask`. -/
def rb_is_full (r : Ringbuffer) : Bool := decide (r.mask < rb_avail r)

/-- `rb_init` with static backing (`!__DYNAMIC_MALLOC__`): fails on a null
pointer (not modelled), `len == 0` or `esize == 0`; sets
`size = RB_BUF_LEN / esize`, rejects it when `size & (size - 1) != 0`
(all in `uint32_t` arithmetic) and finally sets `mask = size - 1`.
The compile-time constant `RB_BUF_LEN` is the first argument; the static
array `data[RB_BUF_LEN]` starts zero-initialised. -/
def rb_init (bufLen len esize : Nat) : Option Ringbuffer :=
  if len = 0 ∨ esize = 0 then none
  else
    let size := bufLen / esize
    if size &&& sub32 size 1 ≠ 0 then none
    else some { in_ := 0, out := 0, mask := sub32 size 1, size := size,
                esize := esize, data := List.replicate bufLen 0 }

/-- `rb_in`: clamps `len` to `rb_unused`, splits the copy at the physical
wrap boundary (`l = min(len, size - (in & mask))` bytes at offset
`in & mask`, the rest at offset 0) and advances `in` by the effective
length; returns the new state and the effective length. -/
def rb_in (r : Ringbuffer) (buf : List Nat) (len : Nat) : Ringbuffer × Nat :=
  let left := rb_unused r
  let len := min len left
  let l := min len (sub32 r.size (r.in_ &&& r.mask))
  let d := memcpyList r.data (r.in_ &&& r.mask) (buf.take l)
  let d := memcpyList d 0 ((buf.drop l).take (len - l))
  ({ r with in_ := (r.in_ + len) % U32, data := d }, len)

/-- `rb_out`: clamps `len` to `rb_avail`, copies `l = min(len, size -
(out & mask))` bytes from offset `out & mask` and the rest from offset 0
into the caller's buffer, and advances `out` by the effective length;
returns the new state, the copied bytes and the effective length. -/
def rb_out (r : Ringbuffer) (len : Nat) : Ringbuffer × List Nat × Nat :=
  let avail := rb_avail r
  let len := min len avail
  let l := min len (sub32 r.size (r.out &&& r.mask))
  let bytes := readBytes r.data (r.out &&& r.mask) l ++ readBytes r.data 0 (len - l)
  ({ r with out := (r.out + len) % U32 }, bytes, len)

/-- `rb_peek`: the same copy logic as `rb_out` (using `rb_size(r)` in place
of `r->size`, as in the source) but without advancing `out`; the function
returns `void` in C and only fills the caller's buffer, so it is modelled
as returning the copied bytes. -/
def rb_peek (r : Ringbuffer) (len : Nat) : List Nat :=
  let avail := rb_avail r
  let len := min len avail
  let l := min len (sub32 (rb_size r) (r.out &&& r.mask))
  readBytes r.data (r.out &&& r.mask) l ++ readBytes r.data 0 (len - l)

/-- One call of the public mutating interface, for stating properties over
arbitrary call sequences. -/
inductive Op where
  | write (buf : List Nat) (len : Nat)
  | read (len : Nat)
  | peek (len : Nat)

/-- The state after one call (`rb_peek` never mutates the buffer). -/
def step (r : Ringbuffer) : Op → Ringbuffer
  | .write buf len => (rb_in r buf len).1
  | .read len => (rb_out r len).1
  | .peek _ => r

/-- The state after a sequence of calls. -/
def runOps (r : Ringbuffer) (ops : List Op) : Ringbuffer := ops.foldl step r

/-- Total number of bytes effectively written (sum of `rb_in` return
values) along a call sequence. -/
def totalWritten (r : Ringbuffer) : List Op → Nat
  | [] => 0
  | op :: ops =>
      (match op with | .write buf len => (rb_in r buf len).2 | _ => 0) +
      totalWritten (step r op) ops

/-- Total number of bytes effectively read (sum of `rb_out` return values)
along a call sequence. -/
def totalRead (r : Ringbuffer) : List Op → Nat
  | [] => 0
  | op :: ops =>
      (match op with | .read len => (rb_out r len).2.2 | _ => 0) +
      totalRead (step r op) ops

/-- Representation invariant maintained by all operations: the cursor and
size fields are genuine `uint32_t` values and the occupancy never exceeds
the capacity. -/
def Inv (r : Ringbuffer) : Prop :=
  r.in_ < U32 ∧ r.out < U32 ∧ r.size < U32 ∧ rb_avail r ≤ r.size

/-- Well-formedness of a constructed buffer with nonzero capacity: `Inv`
together with the power-of-two capacity, `mask = size - 1` and a backing
array at least `size` bytes long. -/
def WF (r : Ringbuffer) : Prop :=
  Inv r ∧ (∃ k, r.size = 2 ^ k) ∧ r.mask = r.size - 1 ∧ r.size ≤ r.data.length

/-- A concrete buffer of capacity 8, the state produced by
`rb_init 8 8 1`; used to instantiate the reachable-state theorems on
concrete inputs. -/
def rb8 : Ringbuffer :=
  { in_ := 0, out := 0, mask := 7, size := 8, esize := 1,
    data := List.replicate 8 0 }

/-- States reachable through the public interface from a successful
`rb_init` whose resulting capacity is nonzero. -/
def ReachableNZ (r : Ringbuffer) : Prop :=
  ∃ B l e r0 ops, B < U32 ∧ rb_init B l e = some r0 ∧ 0 < r0.size ∧
    r = runOps r0 ops

/-! ### Arithmetic helper lemmas -/

theorem sub32_eq_sub {a b : Nat} (ha : a < U32) (hb : b ≤ a) :
    sub32 a b = a - b := by
  simp only [sub32, U32] at *
  omega

theorem sub32_add_eq {i o d : Nat} (hi : i < U32) (ho : o < U32)
    (hd : sub32 i o + d < U32) : sub32 ((i + d) % U32) o = sub32 i o + d := by
  simp only [sub32, U32] at *
  omega

theorem sub32_sub_eq {i o d : Nat} (hi : i < U32) (ho : o < U32)
    (hd : d ≤ sub32 i o) : sub32 i ((o + d) % U32) = sub32 i o - d := by
  simp only [sub32, U32] at *
  omega

theorem sub32_lt (a : Nat) {b : Nat} (hb : b < U32) : sub32 a b < U32 := by
  simp only [sub32, U32] at *
  omega

theorem add_avail_eq {i o : Nat} (hi : i < U32) (ho : o < U32) :
    (o + sub32 i o) % U32 = i := by
  simp only [sub32, U32] at *
  omega

/-- A nonzero `n` with `n &&& (n - 1) = 0` is a power of two (the converse
of the well-known power-of-two test used by `rb_init`). -/
theorem pow_of_land {n : Nat} (hn : 0 < n) (h : n &&& (n - 1) = 0) :
    ∃ k, n = 2 ^ k := by
  induction n using Nat.strong_induction_on with
  | _ n ih =>
    rcases Nat.even_or_odd n with ⟨m, hm⟩ | ⟨m, hm⟩
    · have hm2 : n = 2 * m := by omega
      have hmpos : 0 < m := by omega
      have hland : m &&& (m - 1) = 0 := by
        apply Nat.eq_of_testBit_eq
        intro i
        have := congrArg (fun x => Nat.testBit x (i + 1)) h
        simp only [Nat.testBit_and, Nat.zero_testBit] at this ⊢
        have e1 : n / 2 = m := by omega
        have e2 : (n - 1) / 2 = m - 1 := by omega
        rw [Nat.testBit_add_one, Nat.testBit_add_one, e1, e2] at this
        exact this
      obtain ⟨k, hk⟩ := ih m (by omega) hmpos hland
      exact ⟨k + 1, by rw [hm2, hk, Nat.pow_succ, Nat.mul_comm]⟩
    · rcases Nat.eq_or_lt_of_le hn with h1 | h1
      · exact ⟨0, by omega⟩
      · exfalso
        have hmpos : m ≠ 0 := by omega
        obtain ⟨j, hj⟩ := Nat.ne_zero_implies_bit_true hmpos
        have := congrArg (fun x => Nat.testBit x (j + 1)) h
        simp only [Nat.testBit_and, Nat.zero_testBit] at this
        have e1 : n / 2 = m := by omega
        have e2 : (n - 1) / 2 = m := by omega
        rw [Nat.testBit_add_one, Nat.testBit_add_one, e1, e2, hj] at this
        simp at this

/-- Masking with `2^k - 1` is reduction mod `2^k`; the form in which the
code uses `cursor & mask`. -/
theorem land_mask {r : Ringbuffer} (hWF : WF r) (x : Nat) :
    x &&& r.mask = x % r.size := by
  obtain ⟨-, ⟨k, hk⟩, hm, -⟩ := hWF
  rw [hm, hk, Nat.and_pow_two_sub_one_eq_mod]

/-! ### Lemmas about the byte-array copies -/

theorem length_memcpyList (s : List Nat) :
    ∀ (d : List Nat) (o : Nat), (memcpyList d o s).length = d.length := by
  induction s with
  | nil => intro d o; rfl
  | cons b rest ih => intro d o; rw [memcpyList, ih]; simp

theorem getElem?_memcpyList (s : List Nat) : ∀ (d : List Nat) (o i : Nat),
    (memcpyList d o s)[i]? =
      if o ≤ i ∧ i < o + s.length ∧ i < d.length then s[i - o]? else d[i]? := by
  induction s with
  | nil =>
    intro d o i
    simp only [memcpyList, List.length_nil, Nat.add_zero]
    rw [if_neg (by omega)]
  | cons b rest ih =>
    intro d o i
    rw [memcpyList, ih]
    simp only [List.length_set, List.length_cons]
    rcases Nat.lt_trichotomy i o with h1 | h1 | h1
    · rw [if_neg (by omega), if_neg (by omega), List.getElem?_set_ne (by omega)]
    · subst h1
      rw [if_neg (by omega), List.getElem?_set, if_pos rfl, Nat.sub_self]
      by_cases h3 : i < d.length
      · rw [if_pos h3, if_pos ⟨Nat.le_refl i, by omega, h3⟩, List.getElem?_cons_zero]
      · rw [if_neg h3, if_neg (by omega), List.getElem?_eq_none (by omega)]
    · rw [List.getElem?_set_ne (by omega)]
      by_cases h5 : i < o + (rest.length + 1) ∧ i < d.length
      · rw [if_pos ⟨by omega, by omega, h5.2⟩, if_pos ⟨by omega, by omega, h5.2⟩]
        have he : i - o = (i - (o + 1)) + 1 := by omega
        rw [he, List.getElem?_cons_succ]
      · rw [if_neg (by omega), if_neg (by omega)]

/-- Reading back exactly the range just overwritten yields the source. -/
theorem readBytes_memcpyList_self {d : List Nat} {o : Nat} (s : List Nat)
    (h : o + s.length ≤ d.length) :
    readBytes (memcpyList d o s) o s.length = s := by
  apply List.ext_getElem?
  intro i
  simp only [readBytes, List.getElem?_take, List.getElem?_drop,
    getElem?_memcpyList]
  by_cases hi : i < s.length
  · rw [if_pos hi, if_pos ⟨by omega, by omega, by omega⟩]
    have he : o + i - o = i := by omega
    rw [he]
  · rw [if_neg hi, List.getElem?_eq_none (by omega)]

/-- A copy does not disturb a read range that ends before it starts. -/
theorem readBytes_memcpyList_above {d s : List Nat} {o o2 n : Nat}
    (h : o2 + n ≤ o) :
    readBytes (memcpyList d o s) o2 n = readBytes d o2 n := by
  apply List.ext_getElem?
  intro i
  simp only [readBytes, List.getElem?_take, List.getElem?_drop,
    getElem?_memcpyList]
  by_cases hi : i < n
  · rw [if_pos hi, if_pos hi, if_neg (by omega)]
  · rw [if_neg hi, if_neg hi]

/-- A copy does not disturb a read range that starts after it ends. -/
theorem readBytes_memcpyList_below {d s : List Nat} {o o2 n : Nat}
    (h : o + s.length ≤ o2) :
    readBytes (memcpyList d o s) o2 n = readBytes d o2 n := by
  apply List.ext_getElem?
  intro i
  simp only [readBytes, List.getElem?_take, List.getElem?_drop,
    getElem?_memcpyList]
  by_cases hi : i < n
  · rw [if_pos hi, if_pos hi, if_neg (by omega)]
  · rw [if_neg hi, if_neg hi]

/-! ### Projections of the operations -/

theorem rb_in_snd (r : Ringbuffer) (buf : List Nat) (len : Nat) :
    (rb_in r buf len).2 = min len (rb_unused r) := rfl

theorem rb_in_in_ (r : Ringbuffer) (buf : List Nat) (len : Nat) :
    (rb_in r buf len).1.in_ = (r.in_ + min len (rb_unused r)) % U32 := rfl

theorem rb_in_out (r : Ringbuffer) (buf : List Nat) (len : Nat) :
    (rb_in r buf len).1.out = r.out := rfl

theorem rb_in_size (r : Ringbuffer) (buf : List Nat) (len : Nat) :
    (rb_in r buf len).1.size = r.size := rfl

theorem rb_in_mask (r : Ringbuffer) (buf : List Nat) (len : Nat) :
    (rb_in r buf len).1.mask = r.mask := rfl

theorem rb_in_esize (r : Ringbuffer) (buf : List Nat) (len : Nat) :
    (rb_in r buf len).1.esize = r.esize := rfl

theorem rb_in_data_length (r : Ringbuffer) (buf : List Nat) (len : Nat) :
    (rb_in r buf len).1.data.length = r.data.length := by
  show (memcpyList (memcpyList r.data _ _) _ _).length = _
  rw [length_memcpyList, length_memcpyList]

theorem rb_out_snd (r : Ringbuffer) (len : Nat) :
    (rb_out r len).2.2 = min len (rb_avail r) := rfl

theorem rb_out_out (r : Ringbuffer) (len : Nat) :
    (rb_out r len).1.out = (r.out + min len (rb_avail r)) % U32 := rfl

theorem rb_out_in_ (r : Ringbuffer) (len : Nat) :
    (rb_out r len).1.in_ = r.in_ := rfl

theorem rb_out_size (r : Ringbuffer) (len : Nat) :
    (rb_out r len).1.size = r.size := rfl

theorem rb_out_mask (r : Ringbuffer) (len : Nat) :
    (rb_out r len).1.mask = r.mask := rfl

theorem rb_out_data (r : Ringbuffer) (len : Nat) :
    (rb_out r len).1.data = r.data := rfl

theorem rb_in_data (r : Ringbuffer) (buf : List Nat) (len : Nat) :
    (rb_in r buf len).1.data =
      memcpyList
        (memcpyList r.data (r.in_ &&& r.mask)
          (buf.take (min (min len (rb_unused r)) (sub32 r.size (r.in_ &&& r.mask)))))
        0
        ((buf.drop (min (min len (rb_unused r)) (sub32 r.size (r.in_ &&& r.mask)))).take
          (min len (rb_unused r) -
            min (min len (rb_unused r)) (sub32 r.size (r.in_ &&& r.mask)))) := rfl

theorem rb_out_bytes (r : Ringbuffer) (len : Nat) :
    (rb_out r len).2.1 =
      readBytes r.data (r.out &&& r.mask)
        (min (min len (rb_avail r)) (sub32 r.size (r.out &&& r.mask))) ++
      readBytes r.data 0
        (min len (rb_avail r) -
          min (min len (rb_avail r)) (sub32 r.size (r.out &&& r.mask))) := rfl

theorem rb_peek_bytes (r : Ringbuffer) (len : Nat) :
    rb_peek r len =
      readBytes r.data (r.out &&& r.mask)
        (min (min len (rb_avail r)) (sub32 (rb_size r) (r.out &&& r.mask))) ++
      readBytes r.data 0
        (min len (rb_avail r) -
          min (min len (rb_avail r)) (sub32 (rb_size r) (r.out &&& r.mask))) := rfl

/-! ### Occupancy arithmetic under the representation invariant -/

theorem sub32_self {x : Nat} (hx : x < U32) : sub32 x x = 0 := by
  simp only [sub32, U32] at *
  omega

theorem rb_unused_eq {r : Ringbuffer} (h : Inv r) :
    rb_unused r = r.size - rb_avail r :=
  sub32_eq_sub h.2.2.1 h.2.2.2

theorem rb_avail_rb_in {r : Ringbuffer} (h : Inv r) (buf : List Nat)
    (len : Nat) :
    rb_avail (rb_in r buf len).1 = rb_avail r + min len (rb_unused r) := by
  obtain ⟨hi, ho, hs, ha⟩ := h
  have hd : rb_avail r + min len (rb_unused r) < U32 := by
    have := rb_unused_eq ⟨hi, ho, hs, ha⟩
    have h2 : min len (rb_unused r) ≤ rb_unused r := Nat.min_le_right _ _
    omega
  show sub32 ((r.in_ + min len (rb_unused r)) % U32) r.out = _
  exact sub32_add_eq hi ho hd

theorem rb_avail_rb_out {r : Ringbuffer} (h : Inv r) (len : Nat) :
    rb_avail (rb_out r len).1 = rb_avail r - min len (rb_avail r) := by
  obtain ⟨hi, ho, hs, ha⟩ := h
  show sub32 r.in_ ((r.out + min len (rb_avail r)) % U32) = _
  exact sub32_sub_eq hi ho (Nat.min_le_right _ _)

theorem Inv_rb_in {r : Ringbuffer} (h : Inv r) (buf : List Nat) (len : Nat) :
    Inv (rb_in r buf len).1 := by
  obtain ⟨hi, ho, hs, ha⟩ := h
  refine ⟨?_, ho, hs, ?_⟩
  · rw [rb_in_in_]
    exact Nat.mod_lt _ (by simp [U32])
  · rw [rb_avail_rb_in ⟨hi, ho, hs, ha⟩, rb_in_size]
    have := rb_unused_eq ⟨hi, ho, hs, ha⟩
    have h2 : min len (rb_unused r) ≤ rb_unused r := Nat.min_le_right _ _
    omega

theorem Inv_rb_out {r : Ringbuffer} (h : Inv r) (len : Nat) :
    Inv (rb_out r len).1 := by
  obtain ⟨hi, ho, hs, ha⟩ := h
  refine ⟨hi, ?_, hs, ?_⟩
  · rw [rb_out_out]
    exact Nat.mod_lt _ (by simp [U32])
  · rw [rb_avail_rb_out ⟨hi, ho, hs, ha⟩, rb_out_size]
    omega

theorem Inv_step {r : Ringbuffer} (h : Inv r) (op : Op) : Inv (step r op) := by
  cases op with
  | write buf len => exact Inv_rb_in h buf len
  | read len => exact Inv_rb_out h len
  | peek len => exact h

theorem Inv_runOps {r : Ringbuffer} (h : Inv r) (ops : List Op) :
    Inv (runOps r ops) := by
  induction ops generalizing r with
  | nil => exact h
  | cons op ops ih => exact ih (Inv_step h op)

theorem WF_rb_in {r : Ringbuffer} (h : WF r) (buf : List Nat) (len : Nat) :
    WF (rb_in r buf len).1 := by
  obtain ⟨hInv, hpow, hmask, hdata⟩ := h
  exact ⟨Inv_rb_in hInv buf len,
    by rw [rb_in_size]; exact hpow,
    by rw [rb_in_mask, rb_in_size]; exact hmask,
    by rw [rb_in_size, rb_in_data_length]; exact hdata⟩

theorem WF_rb_out {r : Ringbuffer} (h : WF r) (len : Nat) :
    WF (rb_out r len).1 := by
  obtain ⟨hInv, hpow, hmask, hdata⟩ := h
  exact ⟨Inv_rb_out hInv len,
    by rw [rb_out_size]; exact hpow,
    by rw [rb_out_mask, rb_out_size]; exact hmask,
    by rw [rb_out_size, rb_out_data]; exact hdata⟩

theorem WF_step {r : Ringbuffer} (h : WF r) (op : Op) : WF (step r op) := by
  cases op with
  | write buf len => exact WF_rb_in h buf len
  | read len => exact WF_rb_out h len
  | peek len => exact h

theorem WF_runOps {r : Ringbuffer} (h : WF r) (ops : List Op) :
    WF (runOps r ops) := by
  induction ops generalizing r with
  | nil => exact h
  | cons op ops ih => exact ih (WF_step h op)

/-! ### Facts about `rb_init` -/

theorem rb_init_some {B l e : Nat} {r : Ringbuffer}
    (h : rb_init B l e = some r) :
    r.in_ = 0 ∧ r.out = 0 ∧ r.size = B / e ∧ r.mask = sub32 r.size 1 ∧
    r.data = List.replicate B 0 ∧ r.size &&& sub32 r.size 1 = 0 ∧
    l ≠ 0 ∧ e ≠ 0 := by
  unfold rb_init at h
  split at h
  · exact absurd h (by simp)
  · next hc =>
    simp only [] at h
    split at h
    · exact absurd h (by simp)
    · next hpow =>
      rw [Option.some.injEq] at h
      subst h
      push_neg at hpow hc
      exact ⟨rfl, rfl, rfl, rfl, rfl, hpow, hc.1, hc.2⟩

theorem sub32_zero_zero : sub32 0 0 = 0 := by simp [sub32, U32]

theorem Inv_init {B l e : Nat} {r : Ringbuffer} (hB : B < U32)
    (h : rb_init B l e = some r) : Inv r := by
  obtain ⟨hi, ho, hs, -, -, -, -, he⟩ := rb_init_some h
  refine ⟨by rw [hi]; simp [U32], by rw [ho]; simp [U32], ?_, ?_⟩
  · rw [hs]; exact Nat.lt_of_le_of_lt (Nat.div_le_self B e) hB
  · show sub32 r.in_ r.out ≤ r.size
    rw [hi, ho, sub32_zero_zero]
    exact Nat.zero_le _

theorem WF_init {B l e : Nat} {r : Ringbuffer} (hB : B < U32)
    (h : rb_init B l e = some r) (hpos : 0 < r.size) : WF r := by
  obtain ⟨hi, ho, hs, hmask, hdata, hland, -, -⟩ := rb_init_some h
  have hInv : Inv r := Inv_init hB h
  have hsub : sub32 r.size 1 = r.size - 1 :=
    sub32_eq_sub hInv.2.2.1 hpos
  refine ⟨hInv, ?_, by rw [hmask, hsub], ?_⟩
  · exact pow_of_land hpos (by rw [← hsub]; exact hland)
  · rw [hdata, List.length_replicate, hs]
    exact Nat.div_le_self B e

/-! ### The wraparound-safe round trip from an empty state -/

theorem size_pos {r : Ringbuffer} (hWF : WF r) : 0 < r.size := by
  obtain ⟨-, ⟨k, hk⟩, -, -⟩ := hWF
  rw [hk]
  exact Nat.pos_pow_of_pos k (by norm_num)

theorem roundtrip_core {r : Ringbuffer} (hWF : WF r) (hempty : r.in_ = r.out)
    {buf : List Nat} (hlen : buf.length ≤ r.size) :
    (rb_in r buf buf.length).2 = buf.length ∧
    (rb_out (rb_in r buf buf.length).1 buf.length).2.1 = buf := by
  obtain ⟨hInv, hpow, hmask, hdlen⟩ := hWF
  obtain ⟨hiu, hou, hsu, hau⟩ := hInv
  have hWF' : WF r := ⟨⟨hiu, hou, hsu, hau⟩, hpow, hmask, hdlen⟩
  have hspos : 0 < r.size := size_pos hWF'
  have havail : rb_avail r = 0 := by
    show sub32 r.in_ r.out = 0
    rw [hempty]
    exact sub32_self hou
  have hunused : rb_unused r = r.size := by
    rw [rb_unused_eq ⟨hiu, hou, hsu, hau⟩, havail, Nat.sub_zero]
  have hofs_def : r.in_ &&& r.mask = r.in_ % r.size := land_mask hWF' _
  have hofs_lt : r.in_ % r.size < r.size := Nat.mod_lt _ hspos
  have hclamp : min buf.length (rb_unused r) = buf.length := by
    rw [hunused]
    exact Nat.min_eq_left hlen
  have hsub : sub32 r.size (r.in_ % r.size) = r.size - r.in_ % r.size :=
    sub32_eq_sub hsu (Nat.le_of_lt hofs_lt)
  refine ⟨by rw [rb_in_snd, hclamp], ?_⟩
  set d := buf.length with hd
  set ofs := r.in_ % r.size with hofs
  set l := min d (r.size - ofs) with hl
  have hld : l ≤ d := Nat.min_le_left _ _
  have hlso : l ≤ r.size - ofs := Nat.min_le_right _ _
  have hdl_ofs : d - l ≤ ofs := by omega
  have hdrop_len : (buf.drop l).length = d - l := by
    rw [List.length_drop]
  have h1data : (rb_in r buf d).1.data =
      memcpyList (memcpyList r.data ofs (buf.take l)) 0 (buf.drop l) := by
    rw [rb_in_data, hofs_def, hclamp, hsub, ← hl]
    congr 1
    rw [← hdrop_len]
    exact List.take_length _
  have h1avail : rb_avail (rb_in r buf d).1 = d := by
    rw [rb_avail_rb_in ⟨hiu, hou, hsu, hau⟩, havail, hclamp, Nat.zero_add]
  have h1out : (rb_in r buf d).1.out &&& (rb_in r buf d).1.mask = ofs := by
    rw [rb_in_out, rb_in_mask, hofs, ← hempty, hofs_def]
  have h1sub : sub32 (rb_in r buf d).1.size ofs = r.size - ofs := by
    rw [rb_in_size, hsub]
  rw [rb_out_bytes, h1out, h1avail, h1sub, Nat.min_self, ← hl, h1data]
  have hM0len : (memcpyList r.data ofs (buf.take l)).length = r.data.length :=
    length_memcpyList _ _ _
  have htake_len : (buf.take l).length = l := by
    rw [List.length_take]
    omega
  have part2 : readBytes
      (memcpyList (memcpyList r.data ofs (buf.take l)) 0 (buf.drop l)) 0
      (d - l) = buf.drop l := by
    rw [← hdrop_len]
    exact readBytes_memcpyList_self _ (by rw [hdrop_len, hM0len]; omega)
  have part1 : readBytes
      (memcpyList (memcpyList r.data ofs (buf.take l)) 0 (buf.drop l)) ofs
      l = buf.take l := by
    rw [readBytes_memcpyList_below (by rw [hdrop_len]; omega)]
    have := readBytes_memcpyList_self (d := r.data) (o := ofs) (buf.take l)
      (by rw [htake_len]; omega)
    rw [htake_len] at this
    exact this
  rw [part1, part2, List.take_append_drop]

/-! ### Writes with effective length zero do not change the state -/

theorem rb_in_noop {r : Ringbuffer} (hin : r.in_ < U32) (buf : List Nat)
    (len : Nat) (h : min len (rb_unused r) = 0) : (rb_in r buf len).1 = r := by
  simp only [rb_in, h, Nat.zero_min, List.take_zero, Nat.sub_zero,
    Nat.add_zero, Nat.mod_eq_of_lt hin, memcpyList]

/-- Conservation along any call sequence, relative to the starting
occupancy. -/
theorem conservation_aux {r : Ringbuffer} (h : Inv r) (ops : List Op) :
    totalRead r ops ≤ rb_avail r + totalWritten r ops ∧
    rb_avail (runOps r ops) = rb_avail r + totalWritten r ops -
      totalRead r ops := by
  induction ops generalizing r with
  | nil =>
    exact ⟨Nat.zero_le _, by simp [totalRead, totalWritten, runOps]⟩
  | cons op ops ih =>
    obtain ⟨ih1, ih2⟩ := ih (Inv_step h op)
    cases op with
    | write buf len =>
      have hw : rb_avail (step r (Op.write buf len)) =
          rb_avail r + min len (rb_unused r) := rb_avail_rb_in h buf len
      rw [hw] at ih1 ih2
      constructor
      · show 0 + totalRead (step r (Op.write buf len)) ops ≤
          rb_avail r +
            ((rb_in r buf len).2 + totalWritten (step r (Op.write buf len)) ops)
        rw [rb_in_snd]
        omega
      · show rb_avail (runOps (step r (Op.write buf len)) ops) =
          rb_avail r +
            ((rb_in r buf len).2 +
              totalWritten (step r (Op.write buf len)) ops) -
            (0 + totalRead (step r (Op.write buf len)) ops)
        rw [rb_in_snd]
        omega
    | read len =>
      have hw : rb_avail (step r (Op.read len)) =
          rb_avail r - min len (rb_avail r) := rb_avail_rb_out h len
      rw [hw] at ih1 ih2
      constructor
      · show (rb_out r len).2.2 + totalRead (step r (Op.read len)) ops ≤
          rb_avail r + (0 + totalWritten (step r (Op.read len)) ops)
        rw [rb_out_snd]
        omega
      · show rb_avail (runOps (step r (Op.read len)) ops) =
          rb_avail r + (0 + totalWritten (step r (Op.read len)) ops) -
            ((rb_out r len).2.2 + totalRead (step r (Op.read len)) ops)
        rw [rb_out_snd]
        omega
    | peek len =>
      have hstep : step r (Op.peek len) = r := rfl
      rw [hstep] at ih1 ih2
      constructor
      · show 0 + totalRead r ops ≤ rb_avail r + (0 + totalWritten r ops)
        omega
      · show rb_avail (runOps r ops) =
          rb_avail r + (0 + totalWritten r ops) - (0 + totalRead r ops)
        omega

theorem rb_avail_init {B l e : Nat} {r : Ringbuffer}
    (h : rb_init B l e = some r) : rb_avail r = 0 := by
  obtain ⟨hi, ho, -⟩ := rb_init_some h
  show sub32 r.in_ r.out = 0
  rw [hi, ho, sub32_zero_zero]

theorem WF_reachable {r : Ringbuffer} (h : ReachableNZ r) : WF r := by
  obtain ⟨B, l, e, r0, ops, hB, hinit, hpos, hr⟩ := h
  rw [hr]
  exact WF_runOps (WF_init hB hinit hpos) ops

/-! ### Claim theorems -/

/-- C1 counterexample: in the reachable state obtained by writing the byte
`1` into a freshly constructed capacity-8 buffer, writing `S = [2]`
(`|S| = 1 ≤ Unused`) returns `1`, but the subsequent read of length `1`
returns the older byte `1`, not `S`; so the round trip fails in reachable
states where the buffer is not empty. -/
theorem C1_counterexample :
    rb_init 8 8 1 = some rb8 ∧
    1 ≤ rb_unused (rb_in rb8 [1] 1).1 ∧
    (rb_in (rb_in rb8 [1] 1).1 [2] 1).2 = 1 ∧
    (rb_out (rb_in (rb_in rb8 [1] 1).1 [2] 1).1 1).2.1 = [1] ∧
    (rb_out (rb_in (rb_in rb8 [1] 1).1 [2] 1).1 1).2.1 ≠ [2] := by
  decide

/-- C1 (amended): for every buffer successfully constructed with nonzero
capacity and every reachable state in which the buffer is empty
(`write_cursor == read_cursor`, wherever the cursors sit relative to the
physical wrap boundary), writing a byte sequence `S` with
`|S| ≤ Unused` returns `|S|` and a subsequent read of length `|S|` returns
exactly `S`, including copies that straddle the wrap boundary. -/
theorem C1_roundtrip (r : Ringbuffer) (hr : ReachableNZ r)
    (hempty : rb_is_empty r = true) (S : List Nat)
    (hS : S.length ≤ rb_unused r) :
    (rb_in r S S.length).2 = S.length ∧
    (rb_out (rb_in r S S.length).1 S.length).2.1 = S := by
  have hWF := WF_reachable hr
  have hempty' : r.in_ = r.out := by
    simpa [rb_is_empty] using hempty
  have hS' : S.length ≤ r.size := by
    rw [rb_unused_eq hWF.1] at hS
    omega
  exact roundtrip_core hWF hempty' hS'

theorem C1_roundtrip_witness :
    (rb_in (runOps rb8 [Op.write [9, 9, 9, 9, 9, 9] 6, Op.read 6])
      [1, 2, 3, 4] 4).2 = 4 ∧
    (rb_out (rb_in (runOps rb8 [Op.write [9, 9, 9, 9, 9, 9] 6, Op.read 6])
      [1, 2, 3, 4] 4).1 4).2.1 = [1, 2, 3, 4] :=
  C1_roundtrip (runOps rb8 [Op.write [9, 9, 9, 9, 9, 9] 6, Op.read 6])
    ⟨8, 8, 1, rb8, [Op.write [9, 9, 9, 9, 9, 9] 6, Op.read 6],
      by decide, by decide, by decide, rfl⟩
    (by decide) [1, 2, 3, 4] (by decide)

/-- C2 counterexample: the capacity-0 buffer accepted by `rb_init` when
`RB_BUF_LEN = 16` and `esize = 32` has `Unused = 0`; writing exactly
`Unused` bytes returns `Unused`, yet `IsFull` stays false afterwards,
contradicting the claim for this successfully constructed buffer. -/
theorem C2_counterexample :
    (rb_init 16 1 32).isSome = true ∧
    rb_unused ((rb_init 16 1 32).getD default) = 0 ∧
    (rb_in ((rb_init 16 1 32).getD default) []
        (rb_unused ((rb_init 16 1 32).getD default))).2 =
      rb_unused ((rb_init 16 1 32).getD default) ∧
    rb_is_full (rb_in ((rb_init 16 1 32).getD default) []
        (rb_unused ((rb_init 16 1 32).getD default))).1 = false := by
  decide

/-- C2 (amended): for every reachable state of a buffer successfully
constructed with nonzero capacity, `Write` returns `min(len, Unused)` and
`Read` returns `min(len, Available)`; after writing exactly `Unused` bytes
`IsFull` holds and any subsequent `Write` returns 0 and leaves the state
unchanged, and after reading exactly `Available` bytes `IsEmpty` holds and
any subsequent `Read` returns 0. -/
theorem C2_clamp_boundary (r : Ringbuffer) (hr : ReachableNZ r)
    (buf buf2 : List Nat) (len len2 : Nat) :
    (rb_in r buf len).2 = min len (rb_unused r) ∧
    (rb_out r len).2.2 = min len (rb_avail r) ∧
    rb_is_full (rb_in r buf (rb_unused r)).1 = true ∧
    (rb_in (rb_in r buf (rb_unused r)).1 buf2 len2).2 = 0 ∧
    (rb_in (rb_in r buf (rb_unused r)).1 buf2 len2).1 =
      (rb_in r buf (rb_unused r)).1 ∧
    rb_is_empty (rb_out r (rb_avail r)).1 = true ∧
    (rb_out (rb_out r (rb_avail r)).1 len2).2.2 = 0 := by
  obtain ⟨⟨hi, ho, hs, ha⟩, hpow, hmask, hdl⟩ := WF_reachable hr
  have hInv : Inv r := ⟨hi, ho, hs, ha⟩
  have hspos : 0 < r.size := size_pos ⟨hInv, hpow, hmask, hdl⟩
  have hun : rb_unused r = r.size - rb_avail r := rb_unused_eq hInv
  have hfull_avail : rb_avail (rb_in r buf (rb_unused r)).1 = r.size := by
    rw [rb_avail_rb_in hInv, Nat.min_self, hun]
    omega
  have hfull_unused : rb_unused (rb_in r buf (rb_unused r)).1 = 0 := by
    rw [rb_unused_eq (Inv_rb_in hInv _ _), rb_in_size, hfull_avail]
    omega
  refine ⟨rb_in_snd r buf len, rb_out_snd r len, ?_, ?_, ?_, ?_, ?_⟩
  · show decide ((rb_in r buf (rb_unused r)).1.mask <
      rb_avail (rb_in r buf (rb_unused r)).1) = true
    rw [rb_in_mask, hfull_avail, hmask, decide_eq_true_eq]
    omega
  · rw [rb_in_snd, hfull_unused, Nat.min_zero]
  · apply rb_in_noop (Inv_rb_in hInv _ _).1
    rw [hfull_unused, Nat.min_zero]
  · show ((rb_out r (rb_avail r)).1.in_ ==
      (rb_out r (rb_avail r)).1.out) = true
    rw [rb_out_in_, rb_out_out, Nat.min_self]
    simp only [rb_avail]
    rw [add_avail_eq hi ho]
    exact beq_self_eq_true _
  · rw [rb_out_snd]
    have h0 : rb_avail (rb_out r (rb_avail r)).1 = 0 := by
      rw [rb_avail_rb_out hInv, Nat.min_self]
      omega
    rw [h0, Nat.min_zero]

theorem C2_clamp_boundary_witness :
    (rb_in rb8 [1, 2, 3, 4, 5, 6, 7, 8] 3).2 = min 3 (rb_unused rb8) ∧
    (rb_out rb8 3).2.2 = min 3 (rb_avail rb8) ∧
    rb_is_full (rb_in rb8 [1, 2, 3, 4, 5, 6, 7, 8] (rb_unused rb8)).1 =
      true ∧
    (rb_in (rb_in rb8 [1, 2, 3, 4, 5, 6, 7, 8] (rb_unused rb8)).1
      [9] 5).2 = 0 ∧
    (rb_in (rb_in rb8 [1, 2, 3, 4, 5, 6, 7, 8] (rb_unused rb8)).1
      [9] 5).1 = (rb_in rb8 [1, 2, 3, 4, 5, 6, 7, 8] (rb_unused rb8)).1 ∧
    rb_is_empty (rb_out rb8 (rb_avail rb8)).1 = true ∧
    (rb_out (rb_out rb8 (rb_avail rb8)).1 5).2.2 = 0 :=
  C2_clamp_boundary rb8 ⟨8, 8, 1, rb8, [], by decide, by decide, by decide,
    rfl⟩ [1, 2, 3, 4, 5, 6, 7, 8] [9] 3 5

/-- C5 counterexample: for the capacity-0 buffer accepted by `rb_init`
when `RB_BUF_LEN = 16` and `esize = 32`, the invariant
`Available ≤ Capacity` holds and `Available == Capacity`, yet `IsFull` is
false (its mask is `0xFFFFFFFF`), so the claimed equivalence fails for
this successfully constructed buffer. -/
theorem C5_counterexample :
    (rb_init 16 1 32).isSome = true ∧
    rb_avail ((rb_init 16 1 32).getD default) ≤
      rb_size ((rb_init 16 1 32).getD default) ∧
    rb_avail ((rb_init 16 1 32).getD default) =
      rb_size ((rb_init 16 1 32).getD default) ∧
    rb_is_full ((rb_init 16 1 32).getD default) = false := by
  decide

/-- C5 (amended): for every reachable state of a buffer successfully
constructed with nonzero capacity, `IsFull` is `Available > mask` by
definition, and it holds iff `Available == Capacity`, i.e. iff
`write_cursor - read_cursor == Capacity` (unsigned). -/
theorem C5_is_full_iff (r : Ringbuffer) (hr : ReachableNZ r) :
    rb_is_full r = decide (r.mask < rb_avail r) ∧
    (rb_is_full r = true ↔ rb_avail r = rb_size r) ∧
    (rb_is_full r = true ↔ sub32 r.in_ r.out = rb_size r) := by
  obtain ⟨⟨hi, ho, hs, ha⟩, hpow, hmask, hdl⟩ := WF_reachable hr
  have hspos : 0 < r.size := size_pos ⟨⟨hi, ho, hs, ha⟩, hpow, hmask, hdl⟩
  have ha' : sub32 r.in_ r.out ≤ r.size := ha
  refine ⟨rfl, ?_, ?_⟩ <;>
  · simp only [rb_is_full, rb_avail, rb_size, hmask, decide_eq_true_eq]
    omega

theorem C5_is_full_iff_witness :
    rb_is_full rb8 = decide (rb8.mask < rb_avail rb8) ∧
    (rb_is_full rb8 = true ↔ rb_avail rb8 = rb_size rb8) ∧
    (rb_is_full rb8 = true ↔ sub32 rb8.in_ rb8.out = rb_size rb8) :=
  C5_is_full_iff rb8 ⟨8, 8, 1, rb8, [], by decide, by decide, by decide, rfl⟩

/-- C4: the power-of-two check of `rb_init` accepts a zero capacity: with
`RB_BUF_LEN = 16`, `len = 1`, `esize = 32` the derived quotient
`16 / 32 = 0` is not a power of two, yet initialization succeeds with
`size = 0` and `mask = 0xFFFFFFFF` (`0 & (0 - 1) == 0` passes the check),
contradicting the code's own comment that the size must be `2^n`. -/
theorem C4_zero_capacity_accepted :
    rb_init 16 1 32 =
      some { in_ := 0, out := 0, mask := 4294967295, size := 0, esize := 32,
             data := List.replicate 16 0 } ∧
    ¬ ∃ k, ((rb_init 16 1 32).getD default).size = 2 ^ k := by
  constructor
  · decide
  · rintro ⟨k, hk⟩
    have hz : ((rb_init 16 1 32).getD default).size = 0 := by decide
    rw [hz] at hk
    have h2 : 0 < 2 ^ k := Nat.pos_pow_of_pos k (by norm_num)
    omega

/-- C6: `rb_peek` returns exactly the bytes that `rb_out` would return
from the same state (the same `min(len, Available)` bytes starting at the
current read position, with the same wrap-boundary split) while leaving
the buffer state, and hence `Available`, unchanged; repeated peeks with
the same arguments therefore yield identical bytes. -/
theorem C6_peek_is_nondestructive_read (r : Ringbuffer) (len : Nat) :
    rb_peek r len = (rb_out r len).2.1 ∧
    step r (Op.peek len) = r ∧
    rb_avail (step r (Op.peek len)) = rb_avail r :=
  ⟨rfl, rfl, rfl⟩

/-- C8: `rb_init` fails whenever the requested count or the element size
is zero, and on every successful return both cursors are 0 and
`mask = size - 1` in `uint32_t` arithmetic (equal to the plain `size - 1`
whenever the capacity is nonzero). -/
theorem C8_init_contract (B l e : Nat) (hB : B < U32) :
    (l = 0 ∨ e = 0 → rb_init B l e = none) ∧
    (∀ r, rb_init B l e = some r →
      r.in_ = 0 ∧ r.out = 0 ∧ r.mask = sub32 r.size 1 ∧
      (0 < r.size → r.mask = r.size - 1)) := by
  constructor
  · intro h
    unfold rb_init
    rw [if_pos h]
  · intro r h
    obtain ⟨hi, ho, hsz, hmask, -, -, -, -⟩ := rb_init_some h
    have hslt : r.size < U32 := by
      rw [hsz]
      exact Nat.lt_of_le_of_lt (Nat.div_le_self B e) hB
    exact ⟨hi, ho, hmask,
      fun hpos => by rw [hmask]; exact sub32_eq_sub hslt hpos⟩

theorem C8_init_contract_witness :
    rb_init 8 0 1 = none ∧
    (rb8.in_ = 0 ∧ rb8.out = 0 ∧ rb8.mask = sub32 rb8.size 1 ∧
      rb8.mask = rb8.size - 1) :=
  ⟨(C8_init_contract 8 0 1 (by decide)).1 (Or.inl rfl),
   by
     obtain ⟨h1, h2, h3, h4⟩ :=
       (C8_init_contract 8 8 1 (by decide)).2 rb8 (by decide)
     exact ⟨h1, h2, h3, h4 (by decide)⟩⟩

/-- C9: `rb_in` mutates only the storage array and the write cursor; for
every state and input, `out`, `mask`, `size` and `esize` are unchanged. -/
theorem C9_write_frame (r : Ringbuffer) (buf : List Nat) (len : Nat) :
    (rb_in r buf len).1.out = r.out ∧ (rb_in r buf len).1.mask = r.mask ∧
    (rb_in r buf len).1.size = r.size ∧
    (rb_in r buf len).1.esize = r.esize :=
  ⟨rfl, rfl, rfl, rfl⟩

/-- C10: zero-length calls are no-ops: with in-range cursors, `rb_in` with
`len = 0` returns 0 and leaves the whole state (cursors and storage)
unchanged, `rb_out` with `len = 0` returns 0 and no bytes and leaves the
state unchanged, and `rb_peek` with `len = 0` copies nothing. -/
theorem C10_zero_length_noop (r : Ringbuffer) (hin : r.in_ < U32)
    (hout : r.out < U32) (buf : List Nat) :
    rb_in r buf 0 = (r, 0) ∧ rb_out r 0 = (r, [], 0) ∧ rb_peek r 0 = [] := by
  refine ⟨?_, ?_, ?_⟩
  · have h1 : (rb_in r buf 0).1 = r := rb_in_noop hin buf 0 (by simp)
    have h2 : (rb_in r buf 0).2 = 0 := by rw [rb_in_snd]; simp
    calc rb_in r buf 0 = ((rb_in r buf 0).1, (rb_in r buf 0).2) := rfl
    _ = (r, 0) := by rw [h1, h2]
  · simp only [rb_out, Nat.zero_min, readBytes, List.take_zero, Nat.sub_zero,
      Nat.add_zero, Nat.mod_eq_of_lt hout, List.append_nil]
  · simp only [rb_peek, Nat.zero_min, readBytes, List.take_zero,
      Nat.sub_zero, List.append_nil]

theorem C10_zero_length_noop_witness :
    rb_in rb8 [5] 0 = (rb8, 0) ∧ rb_out rb8 0 = (rb8, [], 0) ∧
    rb_peek rb8 0 = [] :=
  C10_zero_length_noop rb8 (by decide) (by decide) [5]

/-- C3: for every successfully constructed buffer and every finite sequence
of Write/Read/Peek calls from the initial state, `Available` equals the
unsigned cursor difference and `0 ≤ Available ≤ Capacity` holds after every
call. -/
theorem C3_capacity_invariant (B l e : Nat) (hB : B < U32) (r : Ringbuffer)
    (h : rb_init B l e = some r) (ops : List Op) :
    rb_avail (runOps r ops) = sub32 (runOps r ops).in_ (runOps r ops).out ∧
    rb_avail (runOps r ops) ≤ rb_size (runOps r ops) :=
  ⟨rfl, (Inv_runOps (Inv_init hB h) ops).2.2.2⟩

theorem C3_capacity_invariant_witness :
    rb_avail (runOps rb8 [Op.write [1, 2, 3] 3, Op.read 2]) =
      sub32 (runOps rb8 [Op.write [1, 2, 3] 3, Op.read 2]).in_
        (runOps rb8 [Op.write [1, 2, 3] 3, Op.read 2]).out ∧
    rb_avail (runOps rb8 [Op.write [1, 2, 3] 3, Op.read 2]) ≤
      rb_size (runOps rb8 [Op.write [1, 2, 3] 3, Op.read 2]) :=
  C3_capacity_invariant 8 8 1 (by decide) rb8 (by decide)
    [Op.write [1, 2, 3] 3, Op.read 2]

/-- C7: starting from a freshly constructed (hence empty) buffer, after any
interleaving of calls totalling `W` effectively written and `R` effectively
read bytes, `R ≤ W` and `Available = W - R`; the cursors advance modulo
`2^32` and `Available` is their unsigned difference, so this covers
wraparound. -/
theorem C7_conservation (B l e : Nat) (hB : B < U32) (r : Ringbuffer)
    (h : rb_init B l e = some r) (ops : List Op) :
    totalRead r ops ≤ totalWritten r ops ∧
    rb_avail (runOps r ops) = totalWritten r ops - totalRead r ops := by
  have h0 := rb_avail_init h
  obtain ⟨h1, h2⟩ := conservation_aux (Inv_init hB h) ops
  rw [h0] at h1 h2
  exact ⟨by omega, by omega⟩

theorem C7_conservation_witness :
    totalRead rb8 [Op.write [1, 2, 3, 4, 5] 5, Op.read 2, Op.write [6, 7] 2] ≤
      totalWritten rb8
        [Op.write [1, 2, 3, 4, 5] 5, Op.read 2, Op.write [6, 7] 2] ∧
    rb_avail (runOps rb8
        [Op.write [1, 2, 3, 4, 5] 5, Op.read 2, Op.write [6, 7] 2]) =
      totalWritten rb8
        [Op.write [1, 2, 3, 4, 5] 5, Op.read 2, Op.write [6, 7] 2] -
      totalRead rb8
        [Op.write [1, 2, 3, 4, 5] 5, Op.read 2, Op.write [6, 7] 2] :=
  C7_conservation 8 8 1 (by decide) rb8 (by decide)
    [Op.write [1, 2, 3, 4, 5] 5, Op.read 2, Op.write [6, 7] 2]

end RB
